import Mathlib

/-!
Verification development for the sicc repository: a versioned configuration
store abstraction (memory / null / SSM backends) plus an environment
materialization engine (permissive and strict sentinel-substitution mode).

The Go source is shallowly embedded: strings are Lean strings (all inputs of
interest are ASCII, where Go's byte-wise operations in the relevant `strings`
functions coincide with character-wise ones), Go maps become association
lists with in-place replacement (a deterministic refinement of Go's
unspecified map iteration order: insertion order), nil pointers become
Option, and nil-pointer dereferences are modelled as a distinguished
"panic" outcome.
-/

deriving instance DecidableEq for Except

namespace Sicc

/-! ## Go `strings` helpers (character-wise embeddings, exact on ASCII) -/

/-- Go strings.HasPrefix. -/
def hasPrefixS (s pre : String) : Bool :=
  pre.data.isPrefixOf s.data

/-- Go strings.TrimPrefix: remove one leading occurrence of pre, if present. -/
def trimPrefixS (s pre : String) : String :=
  if hasPrefixS s pre then String.mk (s.data.drop pre.data.length) else s

/-- Go strings.ReplaceAll with a single-character pattern and replacement. -/
def replaceCharS (c r : Char) (s : String) : String :=
  String.mk (s.data.map (fun x => if x = c then r else x))

/-- Go strings.ToUpper (ASCII). -/
def toUpperS (s : String) : String :=
  String.mk (s.data.map Char.toUpper)

/-! ## Association lists modelling Go maps.

Insertion replaces in place (keys stay unique when built from the empty
map); deletion removes the key; lookup is List.lookup. Iteration order in
the embedding is insertion order, a deterministic refinement of Go's
unspecified map iteration order. -/

def insertAssoc {α : Type} (l : List (String × α)) (k : String) (v : α) :
    List (String × α) :=
  match l with
  | [] => [(k, v)]
  | (k', v') :: t => if k' = k then (k, v) :: t else (k', v') :: insertAssoc t k v

/-- Go `delete(m, k)`. -/
def removeAssoc {α : Type} (l : List (String × α)) (k : String) :
    List (String × α) :=
  l.filter (fun q => !(q.1 == k))

/-! ## Environment engine (pkg/environ) -/

/-- store.RawValue: a key/value pair without metadata. -/
structure RawValue where
  value : String
  key : String
deriving DecidableEq, Repr

/-- Environ.Unset: replace the first entry whose "key=" prefix matches with
the last entry, then truncate (swap-with-last removal). -/
def unsetEnv (e : List String) (key : String) : List String :=
  match e.findIdx? (fun s => hasPrefixS s (key ++ "=")) with
  | none => e
  | some i => (e.set i ((e.getLast?).getD "")).dropLast

/-- Environ.IsSet. -/
def isSetEnv (e : List String) (key : String) : Bool :=
  e.any (fun s => hasPrefixS s (key ++ "="))

/-- Environ.Set: Unset then append "key=val". -/
def setEnv (e : List String) (key val : String) : List String :=
  unsetEnv e key ++ [key ++ "=" ++ val]

/-- Go strings.SplitN(kv, "=", 2): split at the first '='; none if absent. -/
def breakEq : List Char → Option (List Char × List Char)
  | [] => none
  | '=' :: t => some ([], t)
  | c :: t => (breakEq t).map (fun p => (c :: p.1, p.2))

/-- One entry of Environ.Map: key/value of a "k=v" string, none if malformed. -/
def splitKV (s : String) : Option (String × String) :=
  (breakEq s.data).map (fun p => (String.mk p.1, String.mk p.2))

/-- Environ.Map: collapse to a key-value map; later entries win; entries
without '=' are dropped. -/
def envMap (e : List String) : List (String × String) :=
  e.foldl
    (fun m kv =>
      match splitKV kv with
      | none => m
      | some p => insertAssoc m p.1 p.2)
    []

/-- normalizeEnvVarName: upper-case, replace '/', '-', '.' by '_', trim one
leading '_'. -/
def normalizeEnvVarName (k : String) : String :=
  let s := toUpperS k
  let s := replaceCharS '/' '_' s
  let s := replaceCharS '-' '_' s
  let s := replaceCharS '.' '_' s
  trimPrefixS s "_"

/-- configKeyToEnvVarName (alias of normalizeEnvVarName in the source). -/
def configKeyToEnvVarName (k : String) : String :=
  normalizeEnvVarName k

/-- The environment-variable name Environ.load computes for a raw value:
the raw key with the prefix path trimmed, then normalized. -/
def loadEnvVarKey (prefixPath : String) (rv : RawValue) : String :=
  configKeyToEnvVarName (trimPrefixS rv.key prefixPath)

/-- The environment-variable name Environ.loadStrictOne computes for a raw
value: the raw key normalized as-is (no prefix trimming). -/
def strictEnvVarKey (rv : RawValue) : String :=
  configKeyToEnvVarName rv.key

/-- The environment engine's error taxonomy (the Go error types of
pkg/environ, plus the wrapped ListRaw failure). -/
inductive LoadError where
  | listFailed (prefixPath : String)
  | storeUnexpectedValue (key valueExpected valueActual : String)
  | storeMissingKey (key valueExpected : String)
  | expectedKeyUnnormalized (key valueExpected : String)
deriving DecidableEq, Repr

/-- The loop body of Environ.load over the fetched raw values. -/
def loadRaws (prefixPath : String) :
    List String → List String → List RawValue → List String × List String
  | e, cols, [] => (e, cols)
  | e, cols, rv :: rest =>
    let envVarKey := loadEnvVarKey prefixPath rv
    let cols' := if isSetEnv e envVarKey then cols ++ [envVarKey] else cols
    loadRaws prefixPath (setEnv e envVarKey rv.value) cols' rest

/-- Environ.load: fetch raw values for the prefix, then set each normalized
key, recording collisions. -/
def load (listRaw : String → Except LoadError (List RawValue))
    (e : List String) (prefixPath : String) (cols : List String) :
    Except LoadError (List String × List String) :=
  match listRaw prefixPath with
  | .error _ => .error (.listFailed prefixPath)
  | .ok raws => .ok (loadRaws prefixPath e cols raws)

/-- The first loop of loadStrictOne: collect the sentinel-valued keys of the
parent map, failing on the first one that is not normalized. -/
def collectExpects : List (String × String) → String →
    Except LoadError (List String)
  | [], _ => .ok []
  | (k, v) :: t, ve =>
    if v = ve then
      if k ≠ normalizeEnvVarName k then
        .error (.expectedKeyUnnormalized k ve)
      else
        match collectExpects t ve with
        | .error err => .error err
        | .ok rest => .ok (k :: rest)
    else collectExpects t ve

/-- Mutable state of loadStrictOne's raw-value loop. -/
structure StrictState where
  env : List String
  expects : List String
  added : List String
deriving Repr

/-- The second loop of loadStrictOne: substitute each raw value whose
normalized key appears in the parent map. -/
def strictProcessRaws (parentMap : List (String × String)) (ve : String) :
    StrictState → List RawValue → Except LoadError StrictState
  | st, [] => .ok st
  | st, rv :: rest =>
    let envVarKey := strictEnvVarKey rv
    match List.lookup envVarKey parentMap with
    | none => strictProcessRaws parentMap ve st rest
    | some parentVal =>
      let expects' := st.expects.erase envVarKey
      if parentVal ≠ ve then
        .error (.storeUnexpectedValue envVarKey ve parentVal)
      else
        strictProcessRaws parentMap ve
          ⟨setEnv st.env envVarKey rv.value, expects', envVarKey :: st.added⟩
          rest

/-- Environ.loadStrictOne: one strict pass over the raw values of a single
prefix, against the environment as it stands at entry. -/
def loadStrictOne (e : List String) (rawValues : List RawValue)
    (valueExpected : String) (pristine : Bool) :
    Except LoadError (List String) :=
  let parentMap := envMap e
  match collectExpects parentMap valueExpected with
  | .error err => .error err
  | .ok expects =>
    match strictProcessRaws parentMap valueExpected ⟨e, expects, []⟩ rawValues with
    | .error err => .error err
    | .ok st =>
      match st.expects with
      | k :: _ => .error (.storeMissingKey k valueExpected)
      | [] =>
        if pristine then
          .ok (parentMap.foldl
            (fun env kv =>
              if st.added.contains kv.1 then env else unsetEnv env kv.1)
            st.env)
        else .ok st.env

/-- Environ.loadStrict over an ordered prefix list. The second component of
the result is the trace of ListRaw calls issued, in order, up to the point
of return. -/
def loadStrict (listRaw : String → Except LoadError (List RawValue))
    (e : List String) (valueExpected : String) (pristine : Bool) :
    List String → Except LoadError (List String) × List String
  | [] => (.ok e, [])
  | p :: ps =>
    match listRaw p with
    | .error _ => (.error (.listFailed p), [p])
    | .ok raws =>
      match loadStrictOne e raws valueExpected pristine with
      | .error err => (.error err, [p])
      | .ok e' =>
        let r := loadStrict listRaw e' valueExpected pristine ps
        (r.1, p :: r.2)

/-! ## Go `path` package: Clean, Join, Dir (lazybuf algorithm over chars) -/

/-- The backtracking step of path.Clean's ".." handling: the last output
character has just been dropped (it was lastDropped); keep dropping while
the buffer is longer than dotdot and the last dropped char is not '/'.
Fuel-based structural recursion; the fuel passed by cleanBacktrack always
suffices (each step shortens the buffer by one). -/
def cleanBacktrackAux (dd : Nat) : Nat → List Char → Char → List Char
  | 0, out, _ => out
  | fuel + 1, out, lastDropped =>
    if out.length > dd ∧ lastDropped ≠ '/' then
      match out.getLast? with
      | some c => cleanBacktrackAux dd fuel out.dropLast c
      | none => out
    else out

/-- path.Clean's ".." backtrack: drop the last char, then continue while the
dropped char is not '/' and the buffer is above the dotdot mark. -/
def cleanBacktrack (out : List Char) (dd : Nat) : List Char :=
  match out.getLast? with
  | some c => cleanBacktrackAux dd out.length out.dropLast c
  | none => out

/-- The main loop of Go path.Clean, processing the remaining input p with
output buffer out and dotdot mark dd. Fuel-based structural recursion; the
fuel passed by pathClean (the input length) always suffices, since every
step consumes at least one input character. -/
def cleanLoop (rooted : Bool) : Nat → List Char → List Char → Nat → List Char
  | _, [], out, _ => out
  | 0, _, out, _ => out
  | fuel + 1, c :: r, out, dd =>
    if c = '/' then
      -- empty path element
      cleanLoop rooted fuel r out dd
    else if c = '.' ∧ (r = [] ∨ r.head? = some '/') then
      -- "." element
      cleanLoop rooted fuel r out dd
    else if c = '.' ∧ r.head? = some '.' ∧
        (r.tail = [] ∨ r.tail.head? = some '/') then
      -- ".." element
      if out.length > dd then
        cleanLoop rooted fuel r.tail (cleanBacktrack out dd) dd
      else if !rooted then
        let out' := if out.length > 0 then out ++ ['/', '.', '.'] else ['.', '.']
        cleanLoop rooted fuel r.tail out' out'.length
      else
        cleanLoop rooted fuel r.tail out dd
    else
      -- real path element: add slash if needed, then copy the element
      let out1 :=
        if (rooted ∧ out.length ≠ 1) ∨ (!rooted ∧ out.length ≠ 0) then
          out ++ ['/']
        else out
      cleanLoop rooted fuel ((c :: r).dropWhile (fun x => x ≠ '/'))
        (out1 ++ (c :: r).takeWhile (fun x => x ≠ '/')) dd

/-- Go path.Clean. -/
def pathClean (path : String) : String :=
  if path = "" then "."
  else
    let cs := path.data
    let rooted := cs.head? = some '/'
    let out :=
      if rooted then cleanLoop rooted cs.length (cs.drop 1) ['/'] 1
      else cleanLoop rooted cs.length cs [] 0
    if out = [] then "." else String.mk out

/-- Go path.Join: drop leading empty elements, join the rest on '/', Clean. -/
def pathJoin (elems : List String) : String :=
  match elems.dropWhile (fun s => s = "") with
  | [] => ""
  | rest => pathClean (String.intercalate "/" rest)

/-- Go path.Dir: everything up to the final '/', Cleaned. -/
def pathDir (p : String) : String :=
  pathClean (String.mk (((p.data.reverse).dropWhile (fun c => c ≠ '/')).reverse))

/-! ## Store data model (store package) -/

/-- store.ParameterName. -/
structure ParameterName where
  parameterPath : String
  name : String
deriving DecidableEq, Repr

/-- store.Metadata. Go's time.Time is modelled as an integer timestamp. -/
structure Metadata where
  key : String
  description : String
  secure : Bool
  version : Int
  lastModifiedDate : Int
  lastModifiedUser : String
deriving DecidableEq, Repr

/-- store.Value; the Go *string value pointer becomes an Option. -/
structure Value where
  value : Option String
  meta : Metadata
deriving DecidableEq, Repr

/-- The store error taxonomy relevant to the embedded operations. -/
inductive StoreErr where
  | notFound
deriving DecidableEq, Repr

/-! ## MemoryStore -/

/-- store.MemoryStore: a single map from canonical key to latest value. -/
structure MemoryStore where
  m : List (String × Value)
deriving DecidableEq, Repr

/-- NewMemoryStoreFromMap: join each key onto "/", wrap each value with a
value pointer and zero metadata. The input is given as an ordered list of
pairs (a determinization of Go's map iteration). -/
def NewMemoryStoreFromMap (m : List (String × String)) : MemoryStore :=
  ⟨m.foldl
    (fun cfg kv =>
      insertAssoc cfg (pathJoin ["/", kv.1]) ⟨some kv.2, ⟨"", "", false, 0, 0, ""⟩⟩)
    []⟩

/-- MemoryStore.Put: store the value under the joined key. Always succeeds
(the Go method unconditionally returns nil). -/
def memPut (s : MemoryStore) (name : ParameterName) (value : Value) :
    Except StoreErr MemoryStore :=
  .ok ⟨insertAssoc s.m (pathJoin [name.parameterPath, name.name]) value⟩

/-- MemoryStore.Get: look up the joined key; the version argument is ignored
by the Go implementation. -/
def memGet (s : MemoryStore) (name : ParameterName) (_version : Int) :
    Except StoreErr Value :=
  match List.lookup (pathJoin [name.parameterPath, name.name]) s.m with
  | some val => .ok val
  | none => .error .notFound

/-- MemoryStore.Delete: remove the joined key. Always succeeds (the Go
method unconditionally returns nil, with no existence check). -/
def memDelete (s : MemoryStore) (name : ParameterName) :
    Except StoreErr MemoryStore :=
  .ok ⟨removeAssoc s.m (pathJoin [name.parameterPath, name.name])⟩

/-- Go string comparison (lexicographic on bytes; on ASCII, on chars). -/
def goStrLtAux : List Char → List Char → Bool
  | [], [] => false
  | [], _ :: _ => true
  | _ :: _, [] => false
  | a :: as, b :: bs => if a = b then goStrLtAux as bs else decide (a.toNat < b.toNat)

def goStrLt (a b : String) : Bool :=
  goStrLtAux a.data b.data

/-- Insertion step of sort.Strings on association-list entries (by key). -/
def insertSortedAssoc {α : Type} (p : String × α) :
    List (String × α) → List (String × α)
  | [] => [p]
  | q :: t => if goStrLt p.1 q.1 then p :: q :: t else q :: insertSortedAssoc p t

/-- The "sorted map range" idiom: iterate the map entries in ascending key
order (sort.Strings over the collected keys, then index the map). -/
def sortAssoc {α : Type} (l : List (String × α)) : List (String × α) :=
  l.foldr insertSortedAssoc []

/-- MemoryStore.ListRaw: for every key under the joined prefix (in sorted
key order), dereference the stored value pointer and emit a RawValue keyed
by the trimmed key. A nil value pointer is dereferenced without a check:
that dereference is modelled as the none outcome (panic). -/
def memListRaw (s : MemoryStore) (pre : String) : Option (List RawValue) :=
  match (sortAssoc s.m).foldlM
      (fun (acc : List (String × RawValue)) (kv : String × Value) =>
        if hasPrefixS kv.1 (pathJoin ["/", pre]) then
          match kv.2.value with
          | none => none
          | some str =>
            some (insertAssoc acc (trimPrefixS kv.1 (pathJoin ["/", pre]))
              ⟨str, trimPrefixS kv.1 (pathJoin ["/", pre])⟩)
        else some acc) [] with
  | none => none
  | some vals => some (vals.map (fun q => q.2))

/-- MemoryStore.ListRaw wrapped as the env engine's ListRaw capability: a
panic is mapped onto the (otherwise unused) listFailed error so that the
environment claims, whose stores never store nil values, can consume it. -/
def memListRawE (s : MemoryStore) (pre : String) :
    Except LoadError (List RawValue) :=
  match memListRaw s pre with
  | some l => .ok l
  | none => .error (.listFailed pre)

/-! ## strconv: Atoi and Itoa (unbounded-integer model) -/

/-- Numeric value of an ASCII digit character. -/
def digitVal (c : Char) : Option Nat :=
  if '0' ≤ c ∧ c ≤ '9' then some (c.toNat - '0'.toNat) else none

/-- Parse a non-empty digit string, accumulating left to right. -/
def parseDigitsAcc : List Char → Nat → Option Nat
  | [], acc => some acc
  | c :: cs, acc =>
    match digitVal c with
    | none => none
    | some d => parseDigitsAcc cs (acc * 10 + d)

/-- Go strconv.Atoi: optional sign, then at least one digit (range clamping
for out-of-range values is not modelled; integers are unbounded here). -/
def goAtoi (s : String) : Option Int :=
  match s.data with
  | [] => none
  | c :: cs =>
    if c = '+' then
      if cs = [] then none else (parseDigitsAcc cs 0).map (fun n => (n : Int))
    else if c = '-' then
      if cs = [] then none else (parseDigitsAcc cs 0).map (fun n => -(n : Int))
    else (parseDigitsAcc (c :: cs) 0).map (fun n => (n : Int))

/-- The `v, _ = strconv.Atoi(s)` idiom: the parsed value, 0 on failure. -/
def atoiOrZero (s : String) : Int :=
  (goAtoi s).getD 0

/-- ASCII digit character of a digit value. -/
def digitChar (n : Nat) : Char :=
  Char.ofNat ('0'.toNat + n)

/-- Decimal digits of a natural number, most significant first (strconv's
digit production). Fuel-based structural recursion; natRepr passes fuel n,
which suffices since n / 10 < n at every step. -/
def natReprAux : Nat → Nat → List Char
  | 0, n => [digitChar n]
  | fuel + 1, n =>
    if n < 10 then [digitChar n]
    else natReprAux fuel (n / 10) ++ [digitChar (n % 10)]

def natRepr (n : Nat) : List Char :=
  natReprAux n n

/-- Go strconv.Itoa. -/
def itoa (n : Int) : String :=
  if n < 0 then String.mk ('-' :: natRepr (-n).toNat)
  else String.mk (natRepr n.toNat)

theorem parseDigitsAcc_append (l1 l2 : List Char) (acc : Nat) :
    parseDigitsAcc (l1 ++ l2) acc =
      match parseDigitsAcc l1 acc with
      | none => none
      | some m => parseDigitsAcc l2 m := by
  induction l1 generalizing acc with
  | nil => simp [parseDigitsAcc]
  | cons c cs ih =>
    simp only [List.cons_append, parseDigitsAcc]
    cases digitVal c with
    | none => rfl
    | some d => exact ih _

theorem digitVal_digitChar (n : Nat) (h : n < 10) :
    digitVal (digitChar n) = some n := by
  interval_cases n <;> decide

theorem parseDigitsAcc_natReprAux (fuel n : Nat) (hfuel : n ≤ fuel) :
    ∀ acc : Nat,
      parseDigitsAcc (natReprAux fuel n) acc =
        some (acc * 10 ^ (natReprAux fuel n).length + n) := by
  induction fuel generalizing n with
  | zero =>
    intro acc
    have hn : n = 0 := by omega
    subst hn
    simp [natReprAux, parseDigitsAcc, digitVal_digitChar 0 (by omega)]
  | succ fuel ih =>
    intro acc
    by_cases h : n < 10
    · simp [natReprAux, h, parseDigitsAcc, digitVal_digitChar n h]
    · have hdivle : n / 10 ≤ fuel := by
        have := Nat.div_lt_self (show 0 < n by omega) (show 1 < 10 by omega)
        omega
      simp only [natReprAux, h, if_false]
      rw [parseDigitsAcc_append, ih (n / 10) hdivle acc]
      simp only [parseDigitsAcc, digitVal_digitChar (n % 10) (Nat.mod_lt n (by omega))]
      simp only [List.length_append, List.length_cons, List.length_nil, Nat.zero_add,
        pow_succ]
      congr 1
      have hmod := Nat.div_add_mod n 10
      calc (acc * 10 ^ (natReprAux fuel (n / 10)).length + n / 10) * 10 + n % 10
          = acc * (10 ^ (natReprAux fuel (n / 10)).length * 10) + (10 * (n / 10) + n % 10) := by
            ring
        _ = acc * (10 ^ (natReprAux fuel (n / 10)).length * 10) + n := by rw [hmod]

theorem natReprAux_digits (fuel n : Nat) (hfuel : n ≤ fuel) :
    ∀ c ∈ natReprAux fuel n, ∃ m, m < 10 ∧ c = digitChar m := by
  induction fuel generalizing n with
  | zero =>
    intro c hc
    have hn : n = 0 := by omega
    subst hn
    simp [natReprAux] at hc
    exact ⟨0, by omega, hc⟩
  | succ fuel ih =>
    intro c hc
    by_cases h : n < 10
    · simp [natReprAux, h] at hc
      exact ⟨n, h, hc⟩
    · have hdivle : n / 10 ≤ fuel := by
        have := Nat.div_lt_self (show 0 < n by omega) (show 1 < 10 by omega)
        omega
      simp only [natReprAux, h, if_false, List.mem_append, List.mem_cons,
        List.not_mem_nil, or_false] at hc
      cases hc with
      | inl hmem => exact ih (n / 10) hdivle c hmem
      | inr heq => exact ⟨n % 10, Nat.mod_lt n (by omega), heq⟩

theorem natReprAux_ne_nil (fuel n : Nat) : natReprAux fuel n ≠ [] := by
  cases fuel with
  | zero => simp [natReprAux]
  | succ fuel => by_cases h : n < 10 <;> simp [natReprAux, h]

theorem digitChar_not_sign (m : Nat) (h : m < 10) :
    digitChar m ≠ '+' ∧ digitChar m ≠ '-' := by
  interval_cases m <;> decide

theorem goAtoi_digits (n : Nat) : goAtoi (String.mk (natRepr n)) = some (n : Int) := by
  unfold natRepr
  cases hrep : natReprAux n n with
  | nil => exact absurd hrep (natReprAux_ne_nil n n)
  | cons a t =>
    have hmem : a ∈ natReprAux n n := by rw [hrep]; exact List.mem_cons_self a t
    obtain ⟨m, hm, ha⟩ := natReprAux_digits n n (Nat.le_refl n) a hmem
    obtain ⟨hp, hmn⟩ := digitChar_not_sign m hm
    rw [ha] at hrep ⊢
    show goAtoi ⟨digitChar m :: t⟩ = some (n : Int)
    simp only [goAtoi, hp, hmn, if_false]
    rw [← hrep, parseDigitsAcc_natReprAux n n (Nat.le_refl n) 0]
    simp

theorem goAtoi_itoa (n : Int) : goAtoi (itoa n) = some n := by
  by_cases h : n < 0
  · simp only [itoa, h, if_true, goAtoi, natRepr]
    rw [if_neg (natReprAux_ne_nil (-n).toNat (-n).toNat),
      parseDigitsAcc_natReprAux (-n).toNat (-n).toNat (Nat.le_refl _) 0]
    simp
    exact And.intro (natReprAux_ne_nil _ _) (by omega)
  · have hcast : n = ((n.toNat : Nat) : Int) := by omega
    simp only [itoa, h, if_false]
    rw [goAtoi_digits n.toNat, ← hcast]

theorem atoiOrZero_itoa (n : Int) : atoiOrZero (itoa n) = n := by
  simp [atoiOrZero, goAtoi_itoa]

/-! ## SSM backend (SSMStore) over a model of the parameter service.

The service state maps full parameter names to their current value,
description, type and write history. PutParameter with overwrite replaces
the current entry and appends to the history; DeleteParameter removes the
entry with its whole history. Optional fields that the SDK exposes as
possibly-nil pointers and that the Go code nil-checks (Description) or
passes through (Value) are Options; a nil dereference is the distinguished
nilPanic outcome. -/

/-- One entry of a parameter's history (ssm.ParameterHistory). -/
structure SSMHistoryEntry where
  name : String
  type : String
  description : Option String
  value : Option String
  lastModifiedDate : Int
  lastModifiedUser : String
deriving DecidableEq, Repr

/-- The service-side record for one parameter name. -/
structure SSMParam where
  value : Option String
  description : Option String
  type : String
  lastModifiedDate : Int
  lastModifiedUser : String
  history : List SSMHistoryEntry
deriving DecidableEq, Repr

/-- The parameter service state: full name to record. -/
structure SSMState where
  params : List (String × SSMParam)
deriving DecidableEq, Repr

/-- Outcome of an SSMStore read: a value, ErrConfigNotFound, or a nil
pointer dereference (Go panic). -/
inductive GetOutcome where
  | ok (v : Value)
  | notFound
  | nilPanic
deriving DecidableEq, Repr

/-- SSMStore.parameterNameToString. -/
def parameterNameToString (name : ParameterName) : String :=
  pathJoin ["/", name.parameterPath, name.name]

/-- parameterMetaToValueMeta applied to a service record: parse the
description into a version (0 on failure or absence), but note the Go code
then dereferences *p.Description unconditionally, so an absent description
is a panic. -/
def parameterMetaToValueMeta (name : String) (p : SSMParam) :
    Option Metadata :=
  match p.description with
  | none => none
  | some d =>
    some ⟨name, d, p.type == "SecureString", atoiOrZero d,
      p.lastModifiedDate, p.lastModifiedUser⟩

/-- The DescribeParameters pagination of getLatest: parameters whose
one-level path filter (the parent directory of the requested name) matches,
searched for the exact requested name. -/
def describeFind (params : List (String × SSMParam)) (ns : String) :
    Option (String × SSMParam) :=
  (params.filter (fun q => pathDir q.1 == pathDir ns)).find? (fun q => q.1 == ns)

/-- SSMStore.getLatest: fetch the current value, then resolve metadata via a
one-level sibling listing matched on the full name. -/
def ssmGetLatest (st : SSMState) (name : ParameterName) : GetOutcome :=
  match List.lookup (parameterNameToString name) st.params with
  | none => .notFound
  | some param =>
    match describeFind st.params (parameterNameToString name) with
    | none => .notFound
    | some q =>
      match parameterMetaToValueMeta (parameterNameToString name) q.2 with
      | none => .nilPanic
      | some meta => .ok ⟨param.value, meta⟩

/-- The loop body of SSMStore.getVersion over the key's history stream:
first entry whose parsed description (0 on failure or absence) equals the
requested version. A match with an absent description dereferences nil
while building the result metadata; a match with an absent value leads to
NotFound after the loop. -/
def getVersionLoop (version : Int) : List SSMHistoryEntry → GetOutcome
  | [] => .notFound
  | h :: t =>
    let thisVersion : Int :=
      match h.description with
      | none => 0
      | some d => atoiOrZero d
    if thisVersion == version then
      match h.description with
      | none => .nilPanic
      | some d =>
        match h.value with
        | none => .notFound
        | some _ =>
          .ok ⟨h.value,
            ⟨h.name, d, h.type == "SecureString", thisVersion,
              h.lastModifiedDate, h.lastModifiedUser⟩⟩
    else getVersionLoop version t

/-- SSMStore.getVersion: page through the key's history. -/
def ssmGetVersion (st : SSMState) (name : ParameterName) (version : Int) :
    GetOutcome :=
  getVersionLoop version
    (match List.lookup (parameterNameToString name) st.params with
     | some p => p.history
     | none => [])

/-- SSMStore.Get: -1 means latest, otherwise a history search. -/
def ssmGet (st : SSMState) (name : ParameterName) (version : Int) :
    GetOutcome :=
  if version == -1 then ssmGetLatest st name
  else ssmGetVersion st name version

/-- The service's PutParameter with overwrite: replace the current record
and append a history entry. The service stamps lastModified fields; the
model uses fixed stamps (their values are never at issue). -/
def ssmServicePut (st : SSMState) (ns : String) (typ : String)
    (v : Option String) (desc : String) : SSMState :=
  ⟨insertAssoc st.params ns
    ⟨v, some desc, typ, 0, "",
      (match List.lookup ns st.params with
       | some p => p.history
       | none => []) ++ [⟨ns, typ, some desc, v, 0, ""⟩]⟩⟩

/-- SSMStore.Put: read the current latest (ignoring NotFound), bump the
version, write with overwrite and description = Itoa(version). The returned
Option is none when the embedded Get panics on a nil description. -/
def ssmPut (st : SSMState) (name : ParameterName) (value : Value) :
    Option SSMState :=
  match ssmGet st name (-1) with
  | .nilPanic => none
  | current =>
    some (ssmServicePut st (parameterNameToString name)
      (if value.meta.secure then "SecureString" else "String") value.value
      (itoa
        (match current with
         | .ok cur => cur.meta.version + 1
         | _ => 1)))

/-- Outcome of SSMStore.Delete. -/
inductive DeleteOutcome where
  | ok (st : SSMState)
  | notFound
  | nilPanic
deriving DecidableEq, Repr

/-- SSMStore.Delete: verify existence via Get(latest), then remove all
versions. -/
def ssmDelete (st : SSMState) (name : ParameterName) : DeleteOutcome :=
  match ssmGet st name (-1) with
  | .nilPanic => .nilPanic
  | .notFound => .notFound
  | .ok _ => .ok ⟨removeAssoc st.params (parameterNameToString name)⟩

/-! ## Association-list lemmas -/

theorem lookup_insertAssoc_self {α : Type} (l : List (String × α)) (k : String)
    (v : α) : List.lookup k (insertAssoc l k v) = some v := by
  induction l with
  | nil => simp [insertAssoc, List.lookup]
  | cons p t ih =>
    obtain ⟨k', v'⟩ := p
    by_cases h : k' = k
    · simp [insertAssoc, h, List.lookup]
    · have hbe : (k == k') = false := by simpa using Ne.symm h
      simp only [insertAssoc, h, if_false, List.lookup, hbe]
      exact ih

theorem lookup_removeAssoc_self {α : Type} (l : List (String × α)) (k : String) :
    List.lookup k (removeAssoc l k) = none := by
  induction l with
  | nil => simp [removeAssoc]
  | cons p t ih =>
    obtain ⟨k', v'⟩ := p
    by_cases h : k' = k
    · simpa [removeAssoc, List.filter_cons, h] using ih
    · have hbe : (k == k') = false := by simpa using Ne.symm h
      have hb2 : (!(k' == k)) = true := by simpa using h
      simp only [removeAssoc, List.filter_cons, hb2, if_true] at ih ⊢
      simp only [List.lookup, hbe]
      exact ih

theorem describeFind_eq_lookup (params : List (String × SSMParam)) (ns : String) :
    describeFind params ns = (List.lookup ns params).map (fun v => (ns, v)) := by
  induction params with
  | nil => simp [describeFind, List.lookup]
  | cons p t ih =>
    obtain ⟨k, v⟩ := p
    by_cases h : k = ns
    · subst h
      simp [describeFind, List.filter_cons, List.find?, List.lookup]
    · have hbe : (k == ns) = false := by simpa using h
      have hbe2 : (ns == k) = false := by simpa using Ne.symm h
      simp only [describeFind, List.filter_cons] at ih ⊢
      by_cases hd : (pathDir k == pathDir ns) = true
      · simp only [hd, if_true, List.find?, hbe, List.lookup, hbe2]
        exact ih
      · simp only [Bool.not_eq_true] at hd
        simp only [hd, Bool.false_eq_true, if_false, List.lookup, hbe2]
        exact ih

/-- The version that Get(latest) reports before a write: the metadata
version on success, 0 otherwise ("previous version", with 0 for a missing
key so that previous + 1 = 1 covers the fresh-key case). -/
def ssmPrevVersion (st : SSMState) (name : ParameterName) : Int :=
  match ssmGet st name (-1) with
  | .ok cur => cur.meta.version
  | _ => 0

theorem ssmGetLatest_servicePut (st : SSMState) (nm : ParameterName)
    (typ : String) (v : Option String) (desc : String) :
    ssmGetLatest (ssmServicePut st (parameterNameToString nm) typ v desc) nm =
      .ok ⟨v, ⟨parameterNameToString nm, desc, typ == "SecureString",
        atoiOrZero desc, 0, ""⟩⟩ := by
  unfold ssmGetLatest ssmServicePut
  rw [show (⟨insertAssoc st.params (parameterNameToString nm) _⟩ :
      SSMState).params = insertAssoc st.params (parameterNameToString nm) _
    from rfl]
  rw [lookup_insertAssoc_self, describeFind_eq_lookup, lookup_insertAssoc_self]
  simp [parameterMetaToValueMeta]

/-- Claim C3, amended.

The remote-versioned backend satisfies the claim: whenever the stored
record for the key (if any) carries a description (always true for states
written by this tool), Put succeeds and Get(-1) returns the written value
with version = previous + 1, where previous is the version Get(-1) reported
before the write (0 when the key was absent, so a fresh key gets 1).

MemoryStore does not: Put stores the caller's Value verbatim and Get(-1)
returns it unchanged, version included — no increment happens. -/
theorem c3_put_get_roundtrip :
    (∀ (st : SSMState) (nm : ParameterName) (v : Value),
      (∀ p, List.lookup (parameterNameToString nm) st.params = some p →
        p.description ≠ none) →
      ∃ st', ssmPut st nm v = some st' ∧
        ssmGet st' nm (-1) = .ok ⟨v.value,
          ⟨parameterNameToString nm, itoa (ssmPrevVersion st nm + 1),
            v.meta.secure, ssmPrevVersion st nm + 1, 0, ""⟩⟩ ∧
        (List.lookup (parameterNameToString nm) st.params = none →
          ssmPrevVersion st nm = 0)) ∧
    (∀ (s : MemoryStore) (nm : ParameterName) (v : Value),
      ∃ s', memPut s nm v = .ok s' ∧ memGet s' nm (-1) = .ok v) := by
  constructor
  · intro st nm v hdesc
    have hsec : ((if v.meta.secure then "SecureString" else "String") ==
        "SecureString") = v.meta.secure := by
      cases v.meta.secure <;> simp
    cases hlk : List.lookup (parameterNameToString nm) st.params with
    | none =>
      have hget : ssmGet st nm (-1) = .notFound := by
        simp [ssmGet, ssmGetLatest, hlk]
      have hprev : ssmPrevVersion st nm = 0 := by
        simp [ssmPrevVersion, hget]
      have hput : ssmPut st nm v = some (ssmServicePut st
          (parameterNameToString nm)
          (if v.meta.secure then "SecureString" else "String") v.value
          (itoa 1)) := by
        simp [ssmPut, hget]
      refine ⟨_, hput, ?_, fun _ => hprev⟩
      rw [hprev]
      have hm1 : ((-1 : Int) == (-1 : Int)) = true := by decide
      show ssmGet _ nm (-1) = _
      simp only [ssmGet, hm1, if_true]
      rw [ssmGetLatest_servicePut, atoiOrZero_itoa, hsec]
      norm_num
    | some p =>
      obtain ⟨d, hd⟩ : ∃ d, p.description = some d := by
        cases hpd : p.description with
        | none => exact absurd hpd (hdesc p hlk)
        | some d => exact ⟨d, rfl⟩
      have hget : ssmGet st nm (-1) = .ok ⟨p.value,
          ⟨parameterNameToString nm, d, p.type == "SecureString", atoiOrZero d,
            p.lastModifiedDate, p.lastModifiedUser⟩⟩ := by
        simp only [ssmGet, if_pos rfl, ssmGetLatest, hlk,
          describeFind_eq_lookup, Option.map_some']
        simp [parameterMetaToValueMeta, hd]
      have hprev : ssmPrevVersion st nm = atoiOrZero d := by
        simp [ssmPrevVersion, hget]
      have hput : ssmPut st nm v = some (ssmServicePut st
          (parameterNameToString nm)
          (if v.meta.secure then "SecureString" else "String") v.value
          (itoa (atoiOrZero d + 1))) := by
        simp [ssmPut, hget]
      refine ⟨_, hput, ?_, fun hnone => Option.noConfusion hnone⟩
      rw [hprev]
      have hm1 : ((-1 : Int) == (-1 : Int)) = true := by decide
      show ssmGet _ nm (-1) = _
      simp only [ssmGet, hm1, if_true]
      rw [ssmGetLatest_servicePut, atoiOrZero_itoa, hsec]
  · intro s nm v
    refine ⟨_, rfl, ?_⟩
    simp [memGet, memPut, lookup_insertAssoc_self]

/-- Witness for c3_put_get_roundtrip at concrete inputs: a fresh key on an
empty service state gets version 1, and MemoryStore returns the stored
value verbatim. -/
theorem c3_put_get_roundtrip_witness :
    (∃ st', ssmPut ⟨[]⟩ ⟨"/svc", "key"⟩ ⟨some "v", ⟨"", "", false, 0, 0, ""⟩⟩ =
        some st' ∧
      ssmGet st' ⟨"/svc", "key"⟩ (-1) = .ok ⟨some "v",
        ⟨parameterNameToString ⟨"/svc", "key"⟩,
          itoa (ssmPrevVersion ⟨[]⟩ ⟨"/svc", "key"⟩ + 1), false,
          ssmPrevVersion ⟨[]⟩ ⟨"/svc", "key"⟩ + 1, 0, ""⟩⟩ ∧
      (List.lookup (parameterNameToString ⟨"/svc", "key"⟩)
          (⟨[]⟩ : SSMState).params = none →
        ssmPrevVersion ⟨[]⟩ ⟨"/svc", "key"⟩ = 0)) ∧
    (∃ s', memPut ⟨[]⟩ ⟨"/svc", "key"⟩ ⟨some "v", ⟨"", "", false, 0, 0, ""⟩⟩ =
        .ok s' ∧
      memGet s' ⟨"/svc", "key"⟩ (-1) =
        .ok ⟨some "v", ⟨"", "", false, 0, 0, ""⟩⟩) :=
  ⟨c3_put_get_roundtrip.1 ⟨[]⟩ ⟨"/svc", "key"⟩ ⟨some "v", ⟨"", "", false, 0, 0, ""⟩⟩
      (by intro p hp; simp [List.lookup] at hp),
    c3_put_get_roundtrip.2 ⟨[]⟩ ⟨"/svc", "key"⟩ ⟨some "v", ⟨"", "", false, 0, 0, ""⟩⟩⟩

/-- Counterexample to claim C3 as stated: MemoryStore is a cited conforming
backend, yet Put of a fresh key stores the caller's metadata verbatim, so
Get(-1) reports version 0, not 1. -/
theorem c3_counterexample :
    (memPut ⟨[]⟩ ⟨"/test", "key"⟩ ⟨some "v", ⟨"", "", false, 0, 0, ""⟩⟩).bind
        (fun s' => memGet s' ⟨"/test", "key"⟩ (-1)) =
      .ok ⟨some "v", ⟨"", "", false, 0, 0, ""⟩⟩ ∧
    ((0 : Int) = 1 → False) := by
  constructor
  · decide
  · intro h; cases h

/-- Claim C4, amended.

The remote-versioned backend reports NotFound when deleting a missing key
(it verifies existence via Get(latest) first), and after a successful
delete every Get — latest or any explicit version — reports NotFound.
MemoryStore diverges on the first half: its Delete never checks existence
and always succeeds, even for missing keys; its post-delete Gets do report
NotFound. -/
theorem c4_delete_semantics :
    (∀ (st : SSMState) (nm : ParameterName),
      List.lookup (parameterNameToString nm) st.params = none →
      ssmDelete st nm = .notFound) ∧
    (∀ (st : SSMState) (nm : ParameterName) (st' : SSMState),
      ssmDelete st nm = .ok st' → ∀ ver : Int, ssmGet st' nm ver = .notFound) ∧
    (∀ (s : MemoryStore) (nm : ParameterName),
      ∃ s', memDelete s nm = .ok s') ∧
    (∀ (s : MemoryStore) (nm : ParameterName) (s' : MemoryStore) (ver : Int),
      memDelete s nm = .ok s' → memGet s' nm ver = .error .notFound) := by
  refine ⟨?_, ?_, ?_, ?_⟩
  · intro st nm hlk
    simp [ssmDelete, ssmGet, ssmGetLatest, hlk]
  · intro st nm st' hdel ver
    have hst' : st' = ⟨removeAssoc st.params (parameterNameToString nm)⟩ := by
      unfold ssmDelete at hdel
      cases hget : ssmGet st nm (-1) <;> rw [hget] at hdel <;>
        first
          | (cases hdel; rfl)
          | cases hdel
    subst hst'
    by_cases hv : ver == (-1 : Int)
    · simp [ssmGet, hv, ssmGetLatest, lookup_removeAssoc_self]
    · simp only [ssmGet, hv, Bool.false_eq_true, if_false, ssmGetVersion,
        lookup_removeAssoc_self]
      rfl
  · intro s nm
    exact ⟨_, rfl⟩
  · intro s nm s' ver hdel
    have hs' : s' = ⟨removeAssoc s.m (pathJoin [nm.parameterPath, nm.name])⟩ := by
      cases hdel; rfl
    subst hs'
    simp [memGet, lookup_removeAssoc_self]

/-- Witness for c4_delete_semantics at concrete inputs: deleting the only
key of a one-entry service state succeeds and leaves Gets failing NotFound;
deleting from an empty state reports NotFound; MemoryStore deletion always
succeeds and post-delete Gets fail NotFound. -/
theorem c4_delete_semantics_witness :
    ssmDelete (⟨[]⟩ : SSMState) ⟨"/svc", "key"⟩ = .notFound ∧
    ssmGet (⟨[]⟩ : SSMState) ⟨"/svc", "key"⟩ 7 = .notFound ∧
    (∃ s', memDelete (⟨[]⟩ : MemoryStore) ⟨"/svc", "key"⟩ = .ok s') ∧
    memGet (⟨[]⟩ : MemoryStore) ⟨"/svc", "key"⟩ (-1) = .error .notFound :=
  ⟨c4_delete_semantics.1 ⟨[]⟩ ⟨"/svc", "key"⟩ (by decide),
    c4_delete_semantics.2.1
      ⟨[("/svc/key", ⟨some "x", some "1", "String", 0, "",
        [⟨"/svc/key", "String", some "1", some "x", 0, ""⟩]⟩)]⟩
      ⟨"/svc", "key"⟩ ⟨[]⟩ (by decide) 7,
    c4_delete_semantics.2.2.1 ⟨[]⟩ ⟨"/svc", "key"⟩,
    c4_delete_semantics.2.2.2 ⟨[]⟩ ⟨"/svc", "key"⟩ ⟨[]⟩ (-1) (by decide)⟩

/-- Counterexample to claim C4 as stated: MemoryStore.Delete of a key that
does not exist returns success (the Go method returns nil unconditionally),
not NotFound. -/
theorem c4_counterexample :
    memDelete ⟨[]⟩ ⟨"/a", "b"⟩ = .ok ⟨[]⟩ ∧
    (∀ err : StoreErr,
      (Except.ok (⟨[]⟩ : MemoryStore) : Except StoreErr MemoryStore) ≠
        Except.error err) := by
  constructor
  · decide
  · intro err h; cases h

/-! ## Claim C7: getVersion semantics -/

/-- The version the code parses out of a history entry's description
(0 on parse failure or absence). -/
def parsedDescVersion (h : SSMHistoryEntry) : Int :=
  match h.description with
  | none => 0
  | some d => atoiOrZero d

/-- Modelled from the spec: "page through the key's full history lazily;
return the first entry whose parsed description equals v; fail NotFound if
exhausted without a match, or if the matched entry's value is empty"
(an absent optional value being the empty case, per the data model's
"value may be absent"). -/
def getVersionSpec (history : List SSMHistoryEntry) (v : Int) : GetOutcome :=
  match history.find? (fun h => parsedDescVersion h == v) with
  | none => .notFound
  | some h =>
    match h.value with
    | none => .notFound
    | some _ =>
      .ok ⟨h.value,
        ⟨h.name, h.description.getD "", h.type == "SecureString",
          parsedDescVersion h, h.lastModifiedDate, h.lastModifiedUser⟩⟩

/-- The history loop agrees with the spec's description whenever the
requested version is nonzero, or every entry carries a description: the
only divergence is the nil-description dereference on a v = 0 match. -/
theorem getVersionLoop_spec_agree (history : List SSMHistoryEntry) (v : Int)
    (hsafe : v ≠ 0 ∨ ∀ h ∈ history, h.description ≠ none) :
    getVersionLoop v history = getVersionSpec history v := by
  induction history with
  | nil => rfl
  | cons h t ih =>
    have hsafe' : v ≠ 0 ∨ ∀ x ∈ t, x.description ≠ none := by
      cases hsafe with
      | inl hv => exact Or.inl hv
      | inr hall => exact Or.inr (fun x hx => hall x (List.mem_cons_of_mem h hx))
    by_cases hb : (parsedDescVersion h == v) = true
    · cases hd : h.description with
      | none =>
        have hv0 : v = 0 := by
          have : parsedDescVersion h = 0 := by simp [parsedDescVersion, hd]
          have := beq_iff_eq.mp hb
          omega
        cases hsafe with
        | inl hvne => exact absurd hv0 hvne
        | inr hall => exact absurd hd (hall h (List.mem_cons_self h t))
      | some d =>
        simp only [getVersionLoop, getVersionSpec, List.find?]
        rw [show (match h.description with
            | none => (0 : Int)
            | some d => atoiOrZero d) = parsedDescVersion h from rfl]
        simp only [hb, if_true, hd]
        cases hval : h.value with
        | none => rfl
        | some s => simp [hd, parsedDescVersion]
    · simp only [getVersionLoop, getVersionSpec, List.find?]
      rw [show (match h.description with
          | none => (0 : Int)
          | some d => atoiOrZero d) = parsedDescVersion h from rfl]
      simp only [hb, if_false, Bool.false_eq_true]
      rw [ih hsafe']
      rfl

/-- Claim C7 (code_bug evidence): on the failing input — a history whose
first entry has no description and a present value, requested version 0 —
the Go code dereferences the nil description while building the result and
panics (nilPanic), where the claim (and the code's own nil-guard intent,
two lines above the dereference) says the entry is returned. -/
theorem c7_getversion_nil_description :
    getVersionLoop 0 [⟨"/k", "String", none, some "x", 0, "u"⟩] = .nilPanic ∧
    getVersionSpec [⟨"/k", "String", none, some "x", 0, "u"⟩] 0 =
      .ok ⟨some "x", ⟨"/k", "", false, 0, 0, "u"⟩⟩ ∧
    GetOutcome.nilPanic ≠ GetOutcome.ok ⟨some "x", ⟨"/k", "", false, 0, 0, "u"⟩⟩ := by
  refine ⟨by decide, by decide, by decide⟩

/-! ## Claim C8: key normalization -/

/-- Claim C8: normalization upper-cases, maps '/', '-', '.' to '_', trims
exactly one leading underscore (witnessed by "/.a", whose image keeps one
of its two underscores), is total by construction, and is not injective:
/svc/key and /svc_key collide. -/
theorem c8_normalize_examples :
    normalizeEnvVarName "/t/k" = "T_K" ∧
    normalizeEnvVarName "/t/p/k" = "T_P_K" ∧
    normalizeEnvVarName "/svc/key" = normalizeEnvVarName "/svc_key" ∧
    "/svc/key" ≠ "/svc_key" ∧
    normalizeEnvVarName "/.a" = "_A" ∧
    normalizeEnvVarName "db-user.name" = "DB_USER_NAME" := by
  refine ⟨by decide, by decide, by decide, by decide, by decide, by decide⟩

/-! ## Claims C5 and C6: concrete load behaviour over MemoryStore -/

/-- Claim C5: strict load of the documented seed over the two-entry store
under /test substitutes both sentinel keys and keeps HOME; with pristine,
HOME (never sentinel-filled) is removed. The environments are stated
as the exact result sequences together with their key-value maps. -/
theorem c5_loadstrict_basic_pristine :
    (loadStrict
        (memListRawE (NewMemoryStoreFromMap
          [("/test/db/username", "admin"), ("/test/db/password", "pass")]))
        ["HOME=/tmp", "DB_USERNAME=changeme", "DB_PASSWORD=changeme"]
        "changeme" false ["/test"]).1 =
      .ok ["HOME=/tmp", "DB_PASSWORD=pass", "DB_USERNAME=admin"] ∧
    envMap ["HOME=/tmp", "DB_PASSWORD=pass", "DB_USERNAME=admin"] =
      [("HOME", "/tmp"), ("DB_PASSWORD", "pass"), ("DB_USERNAME", "admin")] ∧
    (loadStrict
        (memListRawE (NewMemoryStoreFromMap
          [("/test/db/username", "admin"), ("/test/db/password", "pass")]))
        ["HOME=/tmp", "DB_USERNAME=changeme", "DB_PASSWORD=changeme"]
        "changeme" true ["/test"]).1 =
      .ok ["DB_USERNAME=admin", "DB_PASSWORD=pass"] ∧
    envMap ["DB_USERNAME=admin", "DB_PASSWORD=pass"] =
      [("DB_USERNAME", "admin"), ("DB_PASSWORD", "pass")] := by
  refine ⟨by decide, by decide, by decide, by decide⟩

/-- Claim C6: permissive load never fails when the listing succeeds —
collisions are recorded, not fatal — and on the documented two-entry store
(keys processed in lexicographic order by MemoryStore.ListRaw) the later
key /test/svc_key wins with collision list [SVC_KEY]. -/
theorem c6_load_collision :
    (∀ (lr : String → Except LoadError (List RawValue)) (e : List String)
        (p : String) (cols : List String) (raws : List RawValue),
      lr p = .ok raws → ∃ res, load lr e p cols = .ok res) ∧
    load
        (memListRawE (NewMemoryStoreFromMap
          [("/test/svc/key", "value1"), ("/test/svc_key", "value2")]))
        [] "/test" [] =
      .ok (["SVC_KEY=value2"], ["SVC_KEY"]) := by
  constructor
  · intro lr e p cols raws hraws
    refine ⟨loadRaws p e cols raws, ?_⟩
    simp [load, hraws]
  · decide

/-- Witness for c6_load_collision's universal part at a concrete store. -/
theorem c6_load_collision_witness :
    ∃ res,
      load (fun _ => .ok [⟨"v", "/k"⟩]) ["HOME=/tmp"] "/" [] = .ok res :=
  c6_load_collision.1 (fun _ => .ok [⟨"v", "/k"⟩]) ["HOME=/tmp"] "/" []
    [⟨"v", "/k"⟩] rfl

/-! ## Claim C10: MemoryStore.ListRaw nil dereference -/

theorem mem_insertSortedAssoc {α : Type} (p q : String × α)
    (l : List (String × α)) :
    q ∈ insertSortedAssoc p l ↔ q = p ∨ q ∈ l := by
  induction l with
  | nil => simp [insertSortedAssoc]
  | cons r t ih =>
    simp only [insertSortedAssoc]
    by_cases h : goStrLt p.1 r.1 = true
    · simp [h, List.mem_cons]
    · simp only [h, Bool.false_eq_true, if_false, List.mem_cons, ih]
      tauto

theorem mem_sortAssoc {α : Type} (q : String × α) (l : List (String × α)) :
    q ∈ sortAssoc l ↔ q ∈ l := by
  induction l with
  | nil => simp [sortAssoc]
  | cons r t ih =>
    simp only [sortAssoc, List.foldr_cons] at ih ⊢
    rw [mem_insertSortedAssoc, ih, List.mem_cons]

/-- Claim C10: ListRaw is total on stores whose values under the prefix all
have a present value pointer, and the precondition is necessary — Put
accepts a Value with an absent value pointer, after which ListRaw over a
covering prefix dereferences nil (the none outcome). -/
theorem c10_listraw_nil_deref :
    (∀ (s : MemoryStore) (pre : String),
      (∀ kv ∈ s.m,
        hasPrefixS kv.1 (pathJoin ["/", pre]) = true → kv.2.value ≠ none) →
      memListRaw s pre ≠ none) ∧
    (∃ s', memPut ⟨[]⟩ ⟨"/a", "b"⟩ ⟨none, ⟨"", "", false, 0, 0, ""⟩⟩ = .ok s' ∧
      memListRaw s' "/" = none) := by
  constructor
  · intro s pre hall
    unfold memListRaw
    have hall' : ∀ kv ∈ sortAssoc s.m,
        hasPrefixS kv.1 (pathJoin ["/", pre]) = true → kv.2.value ≠ none :=
      fun kv hkv => hall kv ((mem_sortAssoc kv s.m).mp hkv)
    have key : ∀ (l : List (String × Value)) (acc : List (String × RawValue)),
        (∀ kv ∈ l,
          hasPrefixS kv.1 (pathJoin ["/", pre]) = true → kv.2.value ≠ none) →
        ∃ r, l.foldlM
          (fun acc kv =>
            if hasPrefixS kv.1 (pathJoin ["/", pre]) then
              match kv.2.value with
              | none => none
              | some str =>
                some (insertAssoc acc (trimPrefixS kv.1 (pathJoin ["/", pre]))
                  ⟨str, trimPrefixS kv.1 (pathJoin ["/", pre])⟩)
            else some acc) acc = some r := by
      intro l
      induction l with
      | nil => exact fun acc _ => ⟨acc, rfl⟩
      | cons kv t ih =>
        intro acc hl
        by_cases hp : hasPrefixS kv.1 (pathJoin ["/", pre]) = true
        · cases hv : kv.2.value with
          | none => exact absurd hv (hl kv (List.mem_cons_self kv t) hp)
          | some str =>
            obtain ⟨r, hr⟩ := ih _ (fun x hx => hl x (List.mem_cons_of_mem kv hx))
            refine ⟨r, ?_⟩
            simpa [List.foldlM, hp, hv] using hr
        · obtain ⟨r, hr⟩ := ih acc (fun x hx => hl x (List.mem_cons_of_mem kv hx))
          refine ⟨r, ?_⟩
          simpa [List.foldlM, hp] using hr
    obtain ⟨r, hr⟩ := key (sortAssoc s.m) [] hall'
    intro hcon
    rw [hr] at hcon
    cases hcon
  · exact ⟨_, rfl, by decide⟩

/-- Witness for c10_listraw_nil_deref's universal part: a one-entry store
with a present value makes ListRaw total. -/
theorem c10_listraw_nil_deref_witness :
    memListRaw ⟨[("/x", ⟨some "v", ⟨"", "", false, 0, 0, ""⟩⟩)]⟩ "/" ≠ none :=
  c10_listraw_nil_deref.1 ⟨[("/x", ⟨some "v", ⟨"", "", false, 0, 0, ""⟩⟩)]⟩ "/"
    (by decide)

/-! ## Claim C9: prefix trimming in load vs loadStrictOne -/

theorem isPrefixOf_append_self (l r : List Char) :
    l.isPrefixOf (l ++ r) = true := by
  induction l with
  | nil => simp [List.isPrefixOf]
  | cons a t ih => simp [List.isPrefixOf, ih]

theorem trimPrefixS_append (p rest : String) :
    trimPrefixS (p ++ rest) p = rest := by
  unfold trimPrefixS hasPrefixS
  rw [String.data_append, if_pos (isPrefixOf_append_self p.data rest.data)]
  rw [List.drop_left]

theorem normalizeEnvVarName_eq (s : String) :
    normalizeEnvVarName s =
      trimPrefixS
        (replaceCharS '.' '_'
          (replaceCharS '-' '_' (replaceCharS '/' '_' (toUpperS s)))) "_" := rfl

theorem trimPrefixS_length_le (s pre : String) :
    (trimPrefixS s pre).data.length ≤ s.data.length := by
  unfold trimPrefixS
  by_cases h : hasPrefixS s pre = true
  · simp [h, List.length_drop]
  · simp [h]

theorem trimPrefixS_length_ge (s pre : String) :
    s.data.length - pre.data.length ≤ (trimPrefixS s pre).data.length := by
  unfold trimPrefixS
  by_cases h : hasPrefixS s pre = true
  · simp [h, List.length_drop]
  · simp [h]

theorem core_length (s : String) :
    (replaceCharS '.' '_'
      (replaceCharS '-' '_' (replaceCharS '/' '_' (toUpperS s)))).data.length =
      s.data.length := by
  simp [replaceCharS, toUpperS, List.length_map]

theorem normalize_length_le (s : String) :
    (normalizeEnvVarName s).data.length ≤ s.data.length := by
  rw [normalizeEnvVarName_eq]
  exact le_trans (trimPrefixS_length_le _ _) (le_of_eq (core_length s))

theorem normalize_length_ge (s : String) :
    s.data.length - 1 ≤ (normalizeEnvVarName s).data.length := by
  rw [normalizeEnvVarName_eq]
  have h1 := trimPrefixS_length_ge
    (replaceCharS '.' '_'
      (replaceCharS '-' '_' (replaceCharS '/' '_' (toUpperS s)))) "_"
  have h2 := core_length s
  have h3 : ("_" : String).data.length = 1 := rfl
  omega

/-- Claim C9: permissive load normalizes the raw key after trimming the
prefix path (string TrimPrefix), strict load normalizes the raw key exactly
as returned by ListRaw; consequently any full-path raw key (as the remote
backend's ListRaw returns, its keys extending the prefix) lands under
different environment-variable names in the two modes whenever the prefix
has at least two characters — in particular /test/db/username maps to
DB_USERNAME permissively but TEST_DB_USERNAME strictly, visible in the
environments the two loaders build. -/
theorem c9_load_vs_strict_naming :
    (∀ (p : String) (rv : RawValue),
      loadEnvVarKey p rv = normalizeEnvVarName (trimPrefixS rv.key p)) ∧
    (∀ rv : RawValue, strictEnvVarKey rv = normalizeEnvVarName rv.key) ∧
    (∀ (p rest v : String), 2 ≤ p.data.length →
      loadEnvVarKey p ⟨v, p ++ rest⟩ ≠ strictEnvVarKey ⟨v, p ++ rest⟩) ∧
    loadEnvVarKey "/test" ⟨"admin", "/test/db/username"⟩ = "DB_USERNAME" ∧
    strictEnvVarKey ⟨"admin", "/test/db/username"⟩ = "TEST_DB_USERNAME" ∧
    load (fun _ => .ok [⟨"admin", "/test/db/username"⟩]) [] "/test" [] =
      .ok (["DB_USERNAME=admin"], []) ∧
    loadStrictOne ["TEST_DB_USERNAME=changeme"] [⟨"admin", "/test/db/username"⟩]
        "changeme" false =
      .ok ["TEST_DB_USERNAME=admin"] := by
  refine ⟨fun _ _ => rfl, fun _ => rfl, ?_, by decide, by decide, by decide, by decide⟩
  intro p rest v hp heq
  have hlen := congrArg (fun s => s.data.length) heq
  simp only [loadEnvVarKey, strictEnvVarKey, configKeyToEnvVarName,
    trimPrefixS_append] at hlen
  have h1 := normalize_length_le rest
  have h2 := normalize_length_ge (p ++ rest)
  rw [String.data_append, List.length_append] at h2
  omega

/-- Witness for c9_load_vs_strict_naming's universal disequality at the
documented /test key. -/
theorem c9_load_vs_strict_naming_witness :
    loadEnvVarKey "/test" ⟨"admin", "/test" ++ "/db/username"⟩ ≠
      strictEnvVarKey ⟨"admin", "/test" ++ "/db/username"⟩ :=
  c9_load_vs_strict_naming.2.2.1 "/test" "/db/username" "admin" (by decide)

/-! ## Claims C1 and C2: strict-load error placement -/

def keysNodup {α : Type} (l : List (String × α)) : Prop :=
  (l.map Prod.fst).Nodup

theorem mem_map_fst_insertAssoc {α : Type} (t : List (String × α))
    (k x : String) (v : α) :
    x ∈ (insertAssoc t k v).map Prod.fst ↔ x = k ∨ x ∈ t.map Prod.fst := by
  induction t with
  | nil => simp [insertAssoc]
  | cons p t ih =>
    obtain ⟨k', v'⟩ := p
    by_cases he : k' = k
    · subst he
      simp [insertAssoc]
    · simp only [insertAssoc, he, if_false, List.map_cons, List.mem_cons, ih]
      tauto

theorem keysNodup_insertAssoc {α : Type} (l : List (String × α)) (k : String)
    (v : α) (h : keysNodup l) : keysNodup (insertAssoc l k v) := by
  induction l with
  | nil => simp [keysNodup, insertAssoc]
  | cons p t ih =>
    obtain ⟨k', v'⟩ := p
    simp only [keysNodup, List.map_cons, List.nodup_cons] at h
    obtain ⟨hk', hnd⟩ := h
    by_cases he : k' = k
    · rw [show insertAssoc ((k', v') :: t) k v = (k, v) :: t from by
        simp [insertAssoc, he]]
      have hk2 : k ∉ List.map Prod.fst t := he ▸ hk'
      simpa [keysNodup] using And.intro hk2 hnd
    · simp only [insertAssoc, he, if_false, keysNodup, List.map_cons,
        List.nodup_cons]
      refine ⟨?_, ih hnd⟩
      intro hcon
      rcases (mem_map_fst_insertAssoc t k k' v).mp hcon with h1 | h2
      · exact he h1
      · exact hk' h2

theorem keysNodup_envMap (e : List String) : keysNodup (envMap e) := by
  suffices h : ∀ (l : List String) (m : List (String × String)), keysNodup m →
      keysNodup (l.foldl
        (fun m kv =>
          match splitKV kv with
          | none => m
          | some p => insertAssoc m p.1 p.2) m) by
    exact h e [] (by simp [keysNodup])
  intro l
  induction l with
  | nil => exact fun m hm => hm
  | cons kv t ih =>
    intro m hm
    simp only [List.foldl_cons]
    cases hs : splitKV kv with
    | none => exact ih m hm
    | some p => exact ih _ (keysNodup_insertAssoc m p.1 p.2 hm)

theorem lookup_of_mem_keysNodup {α : Type} (l : List (String × α))
    (k : String) (v : α) (h : keysNodup l) (hm : (k, v) ∈ l) :
    List.lookup k l = some v := by
  induction l with
  | nil => cases hm
  | cons p t ih =>
    obtain ⟨k', v'⟩ := p
    simp only [keysNodup, List.map_cons, List.nodup_cons] at h
    rcases List.mem_cons.mp hm with heq | hmem
    · injection heq with h1 h2
      subst h1; subst h2
      simp [List.lookup]
    · have hne : ¬k = k' := by
        intro hcon
        subst hcon
        exact h.1 (List.mem_map_of_mem Prod.fst hmem)
      have hbe : (k == k') = false := by simpa using hne
      simp only [List.lookup, hbe]
      exact ih h.2 hmem

theorem collectExpects_error (m : List (String × String)) (ve : String)
    (err : LoadError) (h : collectExpects m ve = .error err) :
    ∃ k', err = .expectedKeyUnnormalized k' ve := by
  induction m with
  | nil => cases h
  | cons p t ih =>
    obtain ⟨k0, v0⟩ := p
    simp only [collectExpects] at h
    by_cases hv : v0 = ve
    · rw [if_pos hv] at h
      by_cases hn : k0 ≠ normalizeEnvVarName k0
      · rw [if_pos hn] at h
        cases h
        exact ⟨k0, rfl⟩
      · rw [if_neg hn] at h
        cases hcol : collectExpects t ve with
        | error err2 =>
          simp only [hcol] at h
          cases h
          exact ih hcol
        | ok rest => simp only [hcol] at h; cases h
    · rw [if_neg hv] at h
      exact ih h

theorem collectExpects_mem (m : List (String × String)) (ve : String) :
    ∀ exp, collectExpects m ve = .ok exp →
      ∀ k ∈ exp, (k, ve) ∈ m ∧ k = normalizeEnvVarName k := by
  induction m with
  | nil =>
    intro exp hok k hk
    cases hok
    cases hk
  | cons p t ih =>
    obtain ⟨k0, v0⟩ := p
    intro exp hok k hk
    simp only [collectExpects] at hok
    by_cases hv : v0 = ve
    · rw [if_pos hv] at hok
      by_cases hn : k0 ≠ normalizeEnvVarName k0
      · rw [if_pos hn] at hok
        cases hok
      · rw [if_neg hn] at hok
        cases hcol : collectExpects t ve with
        | error err => simp only [hcol] at hok; cases hok
        | ok rest =>
          simp only [hcol] at hok
          cases hok
          push_neg at hn
          rcases List.mem_cons.mp hk with heq | hmem
          · subst heq
            subst hv
            exact ⟨List.mem_cons_self _ _, hn⟩
          · obtain ⟨h1, h2⟩ := ih rest hcol k hmem
            exact ⟨List.mem_cons_of_mem _ h1, h2⟩
    · rw [if_neg hv] at hok
      obtain ⟨h1, h2⟩ := ih exp hok k hk
      exact ⟨List.mem_cons_of_mem _ h1, h2⟩

theorem collectExpects_sublist (m : List (String × String)) (ve : String) :
    ∀ exp, collectExpects m ve = .ok exp → exp.Sublist (m.map Prod.fst) := by
  induction m with
  | nil =>
    intro exp hok
    cases hok
    simp
  | cons p t ih =>
    obtain ⟨k0, v0⟩ := p
    intro exp hok
    simp only [collectExpects] at hok
    by_cases hv : v0 = ve
    · rw [if_pos hv] at hok
      by_cases hn : k0 ≠ normalizeEnvVarName k0
      · rw [if_pos hn] at hok
        cases hok
      · rw [if_neg hn] at hok
        cases hcol : collectExpects t ve with
        | error err => simp only [hcol] at hok; cases hok
        | ok rest =>
          simp only [hcol] at hok
          cases hok
          exact List.Sublist.cons₂ k0 (ih rest hcol)
    · rw [if_neg hv] at hok
      exact List.Sublist.cons k0 (ih exp hok)

theorem strictProcessRaws_error (pm : List (String × String)) (ve : String) :
    ∀ (raws : List RawValue) (st : StrictState) (err : LoadError),
      strictProcessRaws pm ve st raws = .error err →
      ∃ a c, err = .storeUnexpectedValue a ve c := by
  intro raws
  induction raws with
  | nil => intro st err h; cases h
  | cons rv rest ih =>
    intro st err h
    cases hlk : List.lookup (strictEnvVarKey rv) pm with
    | none =>
      simp only [strictProcessRaws, hlk] at h
      exact ih st err h
    | some pv =>
      simp only [strictProcessRaws, hlk] at h
      by_cases hne : pv ≠ ve
      · rw [if_pos hne] at h
        cases h
        exact ⟨strictEnvVarKey rv, pv, rfl⟩
      · rw [if_neg hne] at h
        exact ih _ err h

theorem strictProcessRaws_expects_subset (pm : List (String × String))
    (ve : String) :
    ∀ (raws : List RawValue) (st st' : StrictState),
      strictProcessRaws pm ve st raws = .ok st' →
      st'.expects ⊆ st.expects := by
  intro raws
  induction raws with
  | nil =>
    intro st st' h
    cases h
    exact fun x hx => hx
  | cons rv rest ih =>
    intro st st' h
    cases hlk : List.lookup (strictEnvVarKey rv) pm with
    | none =>
      simp only [strictProcessRaws, hlk] at h
      exact ih st st' h
    | some pv =>
      simp only [strictProcessRaws, hlk] at h
      by_cases hne : pv ≠ ve
      · rw [if_pos hne] at h
        cases h
      · rw [if_neg hne] at h
        exact fun x hx => List.mem_of_mem_erase (ih _ st' h hx)

theorem strictProcessRaws_elim (pm : List (String × String)) (ve : String) :
    ∀ (raws : List RawValue) (st st' : StrictState),
      strictProcessRaws pm ve st raws = .ok st' →
      st.expects.Nodup →
      ∀ rv ∈ raws, ∀ pv, List.lookup (strictEnvVarKey rv) pm = some pv →
        strictEnvVarKey rv ∉ st'.expects := by
  intro raws
  induction raws with
  | nil =>
    intro st st' _ _ rv hrv
    cases hrv
  | cons rv0 rest ih =>
    intro st st' hok hnd rv hrv pv hlk
    cases hlk0 : List.lookup (strictEnvVarKey rv0) pm with
    | none =>
      simp only [strictProcessRaws, hlk0] at hok
      rcases List.mem_cons.mp hrv with heq | hmem
      · subst heq
        rw [hlk0] at hlk
        cases hlk
      · exact ih st st' hok hnd rv hmem pv hlk
    | some pv0 =>
      simp only [strictProcessRaws, hlk0] at hok
      by_cases hne : pv0 ≠ ve
      · rw [if_pos hne] at hok
        cases hok
      · rw [if_neg hne] at hok
        have hnd2 : (st.expects.erase (strictEnvVarKey rv0)).Nodup :=
          hnd.erase _
        rcases List.mem_cons.mp hrv with heq | hmem
        · subst heq
          intro hcon
          have hsub := strictProcessRaws_expects_subset pm ve rest _ st' hok
          have : strictEnvVarKey rv ∈ st.expects.erase (strictEnvVarKey rv) :=
            hsub hcon
          exact ((List.Nodup.mem_erase_iff hnd).mp this).1 rfl
        · exact ih _ st' hok hnd2 rv hmem pv hlk

/-- If loadStrictOne reports a missing expected key k, then k is a
sentinel-valued, normalized key of the entry environment that no raw value
of THIS prefix normalizes to — the check is per prefix. -/
theorem loadStrictOne_missing (e : List String) (raws : List RawValue)
    (ve : String) (pr : Bool) (k : String)
    (hmiss : loadStrictOne e raws ve pr = .error (.storeMissingKey k ve)) :
    List.lookup k (envMap e) = some ve ∧ k = normalizeEnvVarName k ∧
      ∀ rv ∈ raws, strictEnvVarKey rv ≠ k := by
  simp only [loadStrictOne] at hmiss
  cases hcol : collectExpects (envMap e) ve with
  | error err =>
    simp only [hcol] at hmiss
    obtain ⟨k', hk'⟩ := collectExpects_error (envMap e) ve err hcol
    cases hmiss
    cases hk'
  | ok exp =>
    simp only [hcol] at hmiss
    cases hproc : strictProcessRaws (envMap e) ve ⟨e, exp, []⟩ raws with
    | error err =>
      simp only [hproc] at hmiss
      obtain ⟨a, c, hac⟩ := strictProcessRaws_error (envMap e) ve raws _ err hproc
      cases hmiss
      cases hac
    | ok st' =>
      simp only [hproc] at hmiss
      cases hexp : st'.expects with
      | nil =>
        simp only [hexp] at hmiss
        by_cases hpr : pr = true <;> simp [hpr] at hmiss
      | cons k0 rest =>
        simp only [hexp] at hmiss
        have hk0 : k0 = k := by
          cases hmiss
          rfl
        subst hk0
        have hksub : k0 ∈ exp :=
          strictProcessRaws_expects_subset (envMap e) ve raws _ st' hproc
            (hexp ▸ List.mem_cons_self k0 rest)
        obtain ⟨hmem, hnorm⟩ :=
          collectExpects_mem (envMap e) ve exp hcol k0 hksub
        have hlk : List.lookup k0 (envMap e) = some ve :=
          lookup_of_mem_keysNodup (envMap e) k0 ve (keysNodup_envMap e) hmem
        refine ⟨hlk, hnorm, ?_⟩
        intro rv hrv hcon
        have hnd : exp.Nodup :=
          List.Nodup.sublist (collectExpects_sublist (envMap e) ve exp hcol)
            (keysNodup_envMap e)
        have := strictProcessRaws_elim (envMap e) ve raws ⟨e, exp, []⟩ st'
          hproc hnd rv hrv ve (by rw [hcon]; exact hlk)
        rw [hcon] at this
        exact this (hexp ▸ List.mem_cons_self k0 rest)

/-- Claim C1, amended.

The expects-set is recomputed and checked after EACH prefix, not once after
all prefixes: whenever a prefix's pass fails, loadStrict aborts right there
(second conjunct), so a sentinel key matched only under a later prefix
still produces MissingExpectedKey (see the counterexample). What survives
of the claim is its single-prefix instance: a single-prefix LoadStrict
reports MissingExpectedKey k only if k is a sentinel-valued normalized seed
key that no store entry under that prefix normalizes to (first conjunct). -/
theorem c1_missing_key_each_pass :
    (∀ (lr : String → Except LoadError (List RawValue)) (e : List String)
        (ve : String) (pr : Bool) (p : String) (raws : List RawValue)
        (k : String),
      lr p = .ok raws →
      (loadStrict lr e ve pr [p]).1 = .error (.storeMissingKey k ve) →
      List.lookup k (envMap e) = some ve ∧ k = normalizeEnvVarName k ∧
        ∀ rv ∈ raws, strictEnvVarKey rv ≠ k) ∧
    (∀ (lr : String → Except LoadError (List RawValue)) (e : List String)
        (ve : String) (pr : Bool) (p : String) (ps : List String)
        (raws : List RawValue) (err : LoadError),
      lr p = .ok raws →
      loadStrictOne e raws ve pr = .error err →
      loadStrict lr e ve pr (p :: ps) = (.error err, [p])) := by
  constructor
  · intro lr e ve pr p raws k hlr hmiss
    cases hone : loadStrictOne e raws ve pr with
    | error err =>
      simp only [loadStrict, hlr, hone] at hmiss
      cases hmiss
      exact loadStrictOne_missing e raws ve pr k hone
    | ok e' =>
      simp only [loadStrict, hlr, hone] at hmiss
      cases hmiss
  · intro lr e ve pr p ps raws err hlr hone
    simp [loadStrict, hlr, hone]

/-- Witness for c1_missing_key_each_pass at a concrete store: a
single-prefix strict load whose seed expects EXTRA while the store only
fills the DB keys reports EXTRA as missing, and EXTRA is indeed a
sentinel-valued normalized seed key matched by no raw value. -/
theorem c1_missing_key_each_pass_witness :
    (List.lookup "EXTRA"
        (envMap ["HOME=/tmp", "DB_USERNAME=changeme", "DB_PASSWORD=changeme",
          "EXTRA=changeme"]) = some "changeme" ∧
      "EXTRA" = normalizeEnvVarName "EXTRA" ∧
      ∀ rv ∈ [(⟨"pass", "/db/password"⟩ : RawValue), ⟨"admin", "/db/username"⟩],
        strictEnvVarKey rv ≠ "EXTRA") ∧
    loadStrict
        (fun _ => .ok [(⟨"pass", "/db/password"⟩ : RawValue),
          ⟨"admin", "/db/username"⟩])
        ["HOME=/tmp", "DB_USERNAME=changeme", "DB_PASSWORD=changeme",
          "EXTRA=changeme"]
        "changeme" false ["/test", "/later"] =
      (.error (.storeMissingKey "EXTRA" "changeme"), ["/test"]) :=
  ⟨c1_missing_key_each_pass.1
      (fun _ => .ok [⟨"pass", "/db/password"⟩, ⟨"admin", "/db/username"⟩])
      ["HOME=/tmp", "DB_USERNAME=changeme", "DB_PASSWORD=changeme",
        "EXTRA=changeme"]
      "changeme" false "/test" [⟨"pass", "/db/password"⟩, ⟨"admin", "/db/username"⟩]
      "EXTRA" rfl (by decide),
    c1_missing_key_each_pass.2
      (fun _ => .ok [⟨"pass", "/db/password"⟩, ⟨"admin", "/db/username"⟩])
      ["HOME=/tmp", "DB_USERNAME=changeme", "DB_PASSWORD=changeme",
        "EXTRA=changeme"]
      "changeme" false "/test" ["/later"]
      [⟨"pass", "/db/password"⟩, ⟨"admin", "/db/username"⟩]
      (.storeMissingKey "EXTRA" "changeme") rfl (by decide)⟩

/-- Counterexample to claim C1 as stated: seed {A, B} both sentinel-valued,
store /p1/a=x under /p1 and /p2/b=y under /p2, strict load over
["/p1", "/p2"]. B is matched by a store entry under the later prefix /p2,
yet the call fails with MissingExpectedKey{B} — the expects check ran after
/p1 alone, and the trace shows /p2 was never even fetched. -/
theorem c1_counterexample :
    loadStrict
        (memListRawE (NewMemoryStoreFromMap [("/p1/a", "x"), ("/p2/b", "y")]))
        ["A=changeme", "B=changeme"] "changeme" false ["/p1", "/p2"] =
      (.error (.storeMissingKey "B" "changeme"), ["/p1"]) := by
  decide

theorem collectExpects_unnormalized (m : List (String × String)) (ve : String) :
    (∃ kv ∈ m, kv.2 = ve ∧ kv.1 ≠ normalizeEnvVarName kv.1) →
    ∃ k, collectExpects m ve = .error (.expectedKeyUnnormalized k ve) ∧
      (k, ve) ∈ m ∧ k ≠ normalizeEnvVarName k := by
  induction m with
  | nil =>
    rintro ⟨kv, hkv, _, _⟩
    cases hkv
  | cons p t ih =>
    obtain ⟨k0, v0⟩ := p
    rintro ⟨kv, hkv, hv, hn⟩
    by_cases hv0 : v0 = ve
    · by_cases hn0 : k0 ≠ normalizeEnvVarName k0
      · refine ⟨k0, ?_, ?_, hn0⟩
        · simp only [collectExpects]
          rw [if_pos hv0, if_pos hn0]
        · rw [← hv0]
          exact List.mem_cons_self _ _
      · rcases List.mem_cons.mp hkv with heq | hmem
        · exfalso
          push_neg at hn0
          rw [heq] at hn
          exact hn hn0
        · obtain ⟨k, hcol, hm, hkn⟩ := ih ⟨kv, hmem, hv, hn⟩
          refine ⟨k, ?_, List.mem_cons_of_mem _ hm, hkn⟩
          simp only [collectExpects]
          rw [if_pos hv0, if_neg hn0]
          simp only [hcol]
    · rcases List.mem_cons.mp hkv with heq | hmem
      · exfalso
        rw [heq] at hv
        exact hv0 hv
      · obtain ⟨k, hcol, hm, hkn⟩ := ih ⟨kv, hmem, hv, hn⟩
        refine ⟨k, ?_, List.mem_cons_of_mem _ hm, hkn⟩
        simp only [collectExpects]
        rw [if_neg hv0]
        exact hcol

/-- Claim C2, amended.

A non-normalized sentinel seed key does make LoadStrict fail with
UnnormalizedExpectedKey before any substitution — but not before any store
access: ListRaw is called on the first prefix BEFORE the check runs (the
check lives inside the per-prefix pass), so exactly one ListRaw call
precedes the error (the trace is [p]); and with an empty prefix list no
check happens at all and the call succeeds. -/
theorem c2_unnormalized_after_first_listraw :
    (∀ (lr : String → Except LoadError (List RawValue)) (e : List String)
        (ve : String) (pr : Bool) (p : String) (ps : List String)
        (raws : List RawValue),
      lr p = .ok raws →
      (∃ kv ∈ envMap e, kv.2 = ve ∧ kv.1 ≠ normalizeEnvVarName kv.1) →
      ∃ k, loadStrict lr e ve pr (p :: ps) =
          (.error (.expectedKeyUnnormalized k ve), [p]) ∧
        (k, ve) ∈ envMap e ∧ k ≠ normalizeEnvVarName k) ∧
    (∀ (lr : String → Except LoadError (List RawValue)) (e : List String)
        (ve : String) (pr : Bool), loadStrict lr e ve pr [] = (.ok e, [])) := by
  constructor
  · intro lr e ve pr p ps raws hlr hex
    obtain ⟨k, hcol, hm, hkn⟩ := collectExpects_unnormalized (envMap e) ve hex
    have hone : loadStrictOne e raws ve pr =
        .error (.expectedKeyUnnormalized k ve) := by
      simp only [loadStrictOne, hcol]
    refine ⟨k, ?_, hm, hkn⟩
    simp [loadStrict, hlr, hone]
  · intro lr e ve pr
    rfl

/-- Witness for c2_unnormalized_after_first_listraw at a concrete seed with
the non-normalized sentinel key DB_username. -/
theorem c2_unnormalized_after_first_listraw_witness :
    (∃ k, loadStrict (fun _ => .ok []) ["DB_username=changeme"] "changeme"
        false ["/test"] =
        (.error (.expectedKeyUnnormalized k "changeme"), ["/test"]) ∧
      (k, "changeme") ∈ envMap ["DB_username=changeme"] ∧
      k ≠ normalizeEnvVarName k) ∧
    loadStrict (fun _ => .ok []) ["DB_username=changeme"] "changeme" false [] =
      (.ok ["DB_username=changeme"], []) :=
  ⟨c2_unnormalized_after_first_listraw.1 (fun _ => .ok [])
      ["DB_username=changeme"] "changeme" false "/test" [] [] rfl (by decide),
    c2_unnormalized_after_first_listraw.2 (fun _ => .ok [])
      ["DB_username=changeme"] "changeme" false⟩

/-- Counterexample to claim C2 as stated: with the non-normalized sentinel
seed key DB_username and one prefix over a real MemoryStore, the call does
fail with UnnormalizedExpectedKey, but the ListRaw trace is ["/test"], not
[] — the store WAS accessed (once) before the error was returned. -/
theorem c2_counterexample :
    loadStrict
        (memListRawE (NewMemoryStoreFromMap
          [("/test/db/username", "admin"), ("/test/db/password", "pass")]))
        ["DB_username=changeme"] "changeme" false ["/test"] =
      (.error (.expectedKeyUnnormalized "DB_username" "changeme"), ["/test"]) ∧
    (["/test"] : List String) ≠ [] := by
  refine ⟨by decide, by decide⟩

end Sicc